import Mathlib

/-!
# Verification of the `yaml-peg` document model and byte cursor

A shallow embedding of the repository's core data structures and
operations:

* `Yaml` / `Node` mirror `YamlBase<R>` / `NodeBase<R>` from `src/node.rs`
  (the reference-counted `Repr` wrapper is flattened away: a node is its
  payload plus the `pos`, `ty`, `anchor` decorations).
* The node accessors `as_str`, `get`, `get_default` and the `Index`
  implementations are translated from `src/node.rs`.
* `Parser` and its cursor operations (`take_while`, `sym`, `sym_set`,
  `sym_seq`, `forward`, `backward`, `consume`, `back`, `context`,
  `indicator`, `consume`) are translated from `src/parser/base/mod.rs`
  (the sibling `src/parser/base.rs` contains a byte-identical
  `take_while` / `context` / cursor logic; the embedding covers both).

Machine integers (`usize`, `u64`) are modelled as `Nat`: the matchers
only ever grow the cursor by at most the input length and `consumed`
accumulates non-negative quantities, so no overflow wrap is observable
there.  The one place where machine arithmetic matters is `back`, whose
`self.pos -= n` underflows when `n > pos`: it is modelled with the
two's-complement wrap modulo `2^64` (the release-build behaviour; a
debug build panics instead, so `n ≤ pos` is the operation's implicit
precondition).
-/

namespace YamlPeg

mutual

/-- The YAML value type, from `YamlBase` in the repository.  `int` and
`float` store the lexical form as a string, exactly as the source does.
A `map` is an insertion-ordered association list, mirroring the
`LinkedHashMap<Node, Node>` used by the source. -/
inductive Yaml where
  | null : Yaml
  | bool : Bool → Yaml
  | int : String → Yaml
  | float : String → Yaml
  | str : String → Yaml
  | array : List Node → Yaml
  | map : List (Node × Node) → Yaml
  | anchor : String → Yaml

/-- A node: YAML payload plus position, type assertion and anchor
decorations, from `NodeBase` in `src/node.rs`. -/
inductive Node where
  | mk : Yaml → Nat → String → String → Node

end

/-- The payload of a node. -/
def Node.yaml : Node → Yaml
  | .mk y _ _ _ => y

/-- The document position of a node. -/
def Node.pos : Node → Nat
  | .mk _ p _ _ => p

/-- The type assertion of a node. -/
def Node.ty : Node → String
  | .mk _ _ t _ => t

/-- The anchor of a node. -/
def Node.anchor : Node → String
  | .mk _ _ _ a => a

mutual

/-- Modelled from the spec: the repository derives `PartialEq`/`Eq` for
`NodeBase` through the `Repr` trait implemented in `src/repr.rs`, which
is not part of the provided sources.  Per the spec (§3) and the doc
comment on `NodeBase`, two nodes compare equal exactly when their `yaml`
payloads are structurally equal, the `pos`, `ty` and `anchor` fields
being ignored; inside containers the elements are themselves compared as
nodes, i.e. again by payload only.  `yamlBeq`/`nodeBeq` realise that
structural comparison. -/
def yamlBeq : Yaml → Yaml → Bool
  | .null, .null => true
  | .bool a, .bool b => a == b
  | .int a, .int b => a == b
  | .float a, .float b => a == b
  | .str a, .str b => a == b
  | .array a, .array b => nodesBeq a b
  | .map a, .map b => pairsBeq a b
  | .anchor a, .anchor b => a == b
  | _, _ => false

def nodeBeq : Node → Node → Bool
  | .mk y _ _ _, .mk z _ _ _ => yamlBeq y z

def nodesBeq : List Node → List Node → Bool
  | [], [] => true
  | a :: as, b :: bs => nodeBeq a b && nodesBeq as bs
  | _, _ => false

def pairsBeq : List (Node × Node) → List (Node × Node) → Bool
  | [], [] => true
  | (k, v) :: as, (l, w) :: bs => nodeBeq k l && nodeBeq v w && pairsBeq as bs
  | _, _ => false

end

/-- A pairing mix for the modelled hash. -/
def mix (a b : Nat) : Nat := a * 1000003 + b

mutual

/-- Modelled from the spec: the repository derives `Hash` for `NodeBase`
through the `Repr` trait in the missing `src/repr.rs`; per the spec the
hash depends only on the `yaml` payload, with nested nodes again hashed
by payload only. -/
def yamlHash : Yaml → Nat
  | .null => 0
  | .bool b => mix 1 (cond b 1 0)
  | .int s => mix 2 s.hash.toNat
  | .float s => mix 3 s.hash.toNat
  | .str s => mix 4 s.hash.toNat
  | .array a => mix 5 (nodesHash a)
  | .map m => mix 6 (pairsHash m)
  | .anchor s => mix 7 s.hash.toNat

def nodeHash : Node → Nat
  | .mk y _ _ _ => yamlHash y

def nodesHash : List Node → Nat
  | [] => 0
  | n :: rest => mix (nodeHash n) (nodesHash rest)

def pairsHash : List (Node × Node) → Nat
  | [] => 0
  | (k, v) :: rest => mix (mix (nodeHash k) (nodeHash v)) (pairsHash rest)

end

/-- One insertion step of a hash set over nodes: a new element is added
only when no element equal under the node equality is already present
(the behaviour of `HashSet::insert` given the modelled `Eq`/`Hash`). -/
def hashSetInsert (s : List Node) (n : Node) : List Node :=
  if s.any (fun m => nodeBeq m n) then s else s ++ [n]

/-- Lookup in the ordered map: the `LinkedHashMap<Node, Node>::get` of
the source finds the entry whose key equals the probe under the node
equality (payload-only). -/
def mapGet (m : List (Node × Node)) (k : Node) : Option Node :=
  (m.find? (fun p => nodeBeq p.1 k)).map (fun p => p.2)

/-- `NodeBase::is_null` from `src/node.rs`. -/
def Node.is_null (n : Node) : Bool := yamlBeq n.yaml .null

/-- `NodeBase::as_str` from `src/node.rs` (expansion of the
`as_method!` form with `Str | ("")?`): `Ok` of the inner string for `Str`, `Ok ""` for
`Null`, otherwise `Err` with the node's position. -/
def Node.as_str (n : Node) : Except Nat String :=
  match n.yaml with
  | .str s => .ok s
  | .null => .ok ""
  | _ => .error n.pos

/-- `NodeBase::get` from `src/node.rs`.  The `panic!("invalid search!")`
branch on an empty key list is modelled as `none`; a returned value is
`some` of the source's `Result<Self, u64>`. -/
def Node.get (n : Node) (keys : List Yaml) : Option (Except Nat Node) :=
  match keys with
  | [] => none
  | k :: rest =>
    match n.yaml with
    | .map m =>
      match mapGet m (.mk k 0 "" "") with
      | some c =>
        match rest with
        | [] => some (.ok c)
        | _ => c.get rest
      | none => some (.error n.pos)
    | _ => some (.error n.pos)

/-- `NodeBase::get_default` from `src/node.rs`, with the same modelling
of the empty-path panic as `Node.get`.  `factory` is the caller-supplied
`as_*` projection. -/
def Node.get_default {Ret : Type} (n : Node) (keys : List Yaml) (d : Ret)
    (factory : Node → Except Nat Ret) : Option (Except Nat Ret) :=
  match keys with
  | [] => none
  | k :: rest =>
    match n.yaml with
    | .map m =>
      match mapGet m (.mk k 0 "" "") with
      | some c =>
        match rest with
        | [] => some (factory c)
        | _ => c.get_default rest d factory
      | none => some (.ok d)
    | _ => some (.error n.pos)

/-- `impl Index<usize> for NodeBase` from `src/node.rs`: the `index`-th
array element, the map entry at the integer-string key, or the node
itself. -/
def Node.indexNat (n : Node) (i : Nat) : Node :=
  match n.yaml with
  | .array a => (a.get? i).getD n
  | .map m => (mapGet m (.mk (.int (toString i)) 0 "" "")).getD n
  | _ => n

/-- `impl Index<&str> for NodeBase` from `src/node.rs`: the map entry at
the string key, or the node itself. -/
def Node.indexStr (n : Node) (k : String) : Node :=
  match n.yaml with
  | .map m => (mapGet m (.mk (.str k) 0 "" "")).getD n
  | _ => n

/-! ## The byte cursor, from `src/parser/base/mod.rs` -/

/-- The option of `Parser::take_while` (`TakeOpt` in the source). -/
inductive TakeOpt where
  | one : TakeOpt
  | range : Nat → Nat → TakeOpt
  | more : Nat → TakeOpt

/-- The parser error type `PError`: recoverable `Mismatch` or fatal
`Terminate` with a message and an absolute offset. -/
inductive PError where
  | mismatch : PError
  | terminate : String → Nat → PError
deriving DecidableEq

/-- The cursor state of `Parser` (the fields the cursor operations
touch; the tag table and version flag are irrelevant to them). -/
structure Parser where
  doc : List Nat
  pos : Nat
  eaten : Nat
  consumed : Nat
deriving DecidableEq

/-- `Parser::new(doc)`: both window indices at zero. -/
def Parser.new (doc : List Nat) : Parser :=
  { doc := doc, pos := 0, eaten := 0, consumed := 0 }

/-- `Parser::food`: the rest of the document after the cursor. -/
def Parser.food (p : Parser) : List Nat := p.doc.drop p.pos

/-- `Parser::indicator`: the absolute offset `consumed + pos`. -/
def Parser.indicator (p : Parser) : Nat := p.consumed + p.pos

/-- `Parser::forward`: commit, `eaten := pos`. -/
def Parser.forward (p : Parser) : Parser := { p with eaten := p.pos }

/-- `Parser::backward`: restore, `pos := eaten`. -/
def Parser.backward (p : Parser) : Parser := { p with pos := p.eaten }

/-- `Parser::back(n)`: move the cursor back by `n` (the source uses
`usize` subtraction `self.pos -= n`, which wraps modulo `2^64` on
underflow in a release build and panics in a debug build; the wrap is
modelled, so `n ≤ pos` is the operation's implicit precondition). -/
def Parser.back (p : Parser) (n : Nat) : Parser :=
  { p with pos := (((p.pos : Int) - (n : Int)) % (2 ^ 64 : Int)).toNat }

/-- When `back` does not underflow (and the cursor is within the word
size, as every reachable `usize` value is), it is plain subtraction,
and in particular never increases `pos`. -/
lemma back_pos_of_le (p : Parser) (n : Nat) (h : n ≤ p.pos) :
    (p.back n).pos = (p.pos - n) % 2 ^ 64 ∧ (p.back n).pos ≤ p.pos := by
  have h1 : (p.back n).pos = (p.pos - n) % 2 ^ 64 := by
    simp only [Parser.back]
    omega
  refine ⟨h1, ?_⟩
  rw [h1]
  exact le_trans (Nat.mod_le _ _) (Nat.sub_le _ _)

/-- `Parser::consume`: `forward`, fold `eaten` into `consumed`, zero
`eaten`, then `backward`. -/
def Parser.consume (p : Parser) : Parser :=
  let p1 := p.forward
  let p2 := { p1 with consumed := p1.consumed + p1.eaten }
  let p3 := { p2 with eaten := 0 }
  p3.backward

/-- The `for c in self.food()` loop body of `Parser::take_while`: walk
the food slice while `f` holds, advancing `pos` and `counter`; stop
after one step for `One`, and when `counter` reaches the upper bound for
`Range`.  Returns the final `pos` and `counter`. -/
def takeLoop (f : Nat → Bool) (opt : TakeOpt) :
    List Nat → Nat → Nat → Nat × Nat
  | [], pos, counter => (pos, counter)
  | c :: rest, pos, counter =>
    if f c then
      match opt with
      | .one => (pos + 1, counter + 1)
      | .range _ hi =>
        if counter + 1 = hi then (pos + 1, counter + 1)
        else takeLoop f opt rest (pos + 1) (counter + 1)
      | .more _ => takeLoop f opt rest (pos + 1) (counter + 1)
    else (pos, counter)

/-- `Parser::take_while` from `src/parser/base/mod.rs` (identical in
`src/parser/base.rs`): run the loop over the current food, then decide
between `Ok` and a backtracking `Mismatch` from the saved entry `pos`
and the loop counter. -/
def Parser.take_while (p : Parser) (f : Nat → Bool) (opt : TakeOpt) :
    Parser × Except PError Unit :=
  let pos0 := p.pos
  let r := takeLoop f opt p.food p.pos 0
  let q : Parser := { p with pos := r.1 }
  if pos0 = q.pos then
    match opt with
    | .more c | .range c _ =>
      if c = 0 then (q, .ok ())
      else (q.backward, .error .mismatch)
    | .one => (q.backward, .error .mismatch)
  else
    match opt with
    | .more c | .range c _ =>
      if r.2 < c then (q.backward, .error .mismatch)
      else (q, .ok ())
    | .one => (q, .ok ())

/-- `Parser::is_in`: membership in a byte set (the source negates
`not_in`). -/
def Parser.is_in (s : List Nat) : Nat → Bool := fun c => s.contains c

/-- `Parser::sym_set`: match one byte from a set. -/
def Parser.sym_set (p : Parser) (s : List Nat) : Parser × Except PError Unit :=
  p.take_while (Parser.is_in s) .one

/-- `Parser::sym`: match a single byte. -/
def Parser.sym (p : Parser) (c : Nat) : Parser × Except PError Unit :=
  p.sym_set [c]

/-- `Parser::sym_seq`: match a fixed byte sequence, propagating the
first error. -/
def Parser.sym_seq (p : Parser) (s : List Nat) : Parser × Except PError Unit :=
  match s with
  | [] => (p, .ok ())
  | c :: rest =>
    match p.sym c with
    | (q, .ok _) => q.sym_seq rest
    | (q, .error e) => (q, .error e)

/-- `Parser::context(f)`: save `eaten`, `forward`, run `f`, restore
`eaten`, return `f`'s result.  `f` is an arbitrary state transformer
with an arbitrary result type, as in the source (`Ret` is a free type
parameter there too). -/
def Parser.context {Ret : Type} (p : Parser) (f : Parser → Parser × Ret) :
    Parser × Ret :=
  let eaten := p.eaten
  let r := f p.forward
  ({ r.1 with eaten := eaten }, r.2)

/-! ## Loop lemmas for `take_while` -/

/-- The length of the maximal prefix of `l` whose bytes satisfy `f`. -/
def matchLen (f : Nat → Bool) (l : List Nat) : Nat := (l.takeWhile f).length

lemma takeLoop_more_eq (f : Nat → Bool) (lo : Nat) :
    ∀ (l : List Nat) (pos c : Nat),
    takeLoop f (.more lo) l pos c = (pos + matchLen f l, c + matchLen f l) := by
  intro l
  induction l with
  | nil => intro pos c; simp [takeLoop, matchLen]
  | cons x xs ih =>
    intro pos c
    by_cases hx : f x
    · simp only [takeLoop, hx, if_true, ih, matchLen,
        List.takeWhile_cons_of_pos hx, List.length_cons, Prod.mk.injEq]
      omega
    · simp [takeLoop, hx, matchLen, List.takeWhile_cons_of_neg hx]

lemma takeLoop_one_eq (f : Nat → Bool) :
    ∀ (l : List Nat) (pos c : Nat),
    takeLoop f .one l pos c
      = if matchLen f l = 0 then (pos, c) else (pos + 1, c + 1) := by
  intro l pos c
  cases l with
  | nil => simp [takeLoop, matchLen]
  | cons x xs =>
    by_cases hx : f x
    · simp [takeLoop, hx, matchLen, List.takeWhile_cons_of_pos hx]
    · simp [takeLoop, hx, matchLen, List.takeWhile_cons_of_neg hx]

lemma takeLoop_range_eq (f : Nat → Bool) (lo hi : Nat) :
    ∀ (l : List Nat) (pos c : Nat), c < hi →
    takeLoop f (.range lo hi) l pos c
      = (pos + min (matchLen f l) (hi - c), c + min (matchLen f l) (hi - c)) := by
  intro l
  induction l with
  | nil => intro pos c _; simp [takeLoop, matchLen]
  | cons x xs ih =>
    intro pos c hc
    by_cases hx : f x
    · by_cases hhit : c + 1 = hi
      · have hm : min (matchLen f (x :: xs)) (hi - c) = 1 := by
          have : (1 : Nat) ≤ matchLen f (x :: xs) := by
            simp [matchLen, List.takeWhile_cons_of_pos hx]
          omega
        simp only [takeLoop, hx, if_true, hhit, if_pos rfl, hm]
      · have hrec := ih (pos + 1) (c + 1) (by omega)
        have hm : matchLen f (x :: xs) = matchLen f xs + 1 := by
          simp [matchLen, List.takeWhile_cons_of_pos hx]
        simp only [takeLoop, hx, if_true, if_neg hhit, hrec, hm, Prod.mk.injEq]
        omega
    · have hm : matchLen f (x :: xs) = 0 := by
        simp [matchLen, List.takeWhile_cons_of_neg hx]
      simp [takeLoop, hx, hm]

lemma takeLoop_range_zero_eq (f : Nat → Bool) (lo : Nat) :
    ∀ (l : List Nat) (pos c : Nat),
    takeLoop f (.range lo 0) l pos c
      = (pos + matchLen f l, c + matchLen f l) := by
  intro l
  induction l with
  | nil => intro pos c; simp [takeLoop, matchLen]
  | cons x xs ih =>
    intro pos c
    by_cases hx : f x
    · have hm : matchLen f (x :: xs) = matchLen f xs + 1 := by
        simp [matchLen, List.takeWhile_cons_of_pos hx]
      simp only [takeLoop, hx, if_true, if_neg (by omega : ¬c + 1 = 0), ih, hm,
        Prod.mk.injEq]
      omega
    · have hm : matchLen f (x :: xs) = 0 := by
        simp [matchLen, List.takeWhile_cons_of_neg hx]
      simp [takeLoop, hx, hm]

lemma takeLoop_pos_ge (f : Nat → Bool) (opt : TakeOpt) :
    ∀ (l : List Nat) (pos c : Nat), pos ≤ (takeLoop f opt l pos c).1 := by
  intro l
  induction l with
  | nil => intro pos c; simp [takeLoop]
  | cons x xs ih =>
    intro pos c
    by_cases hx : f x
    · cases opt with
      | one => simp [takeLoop, hx]
      | range lo hi =>
        by_cases hhit : c + 1 = hi
        · simp [takeLoop, hx, hhit]
        · have := ih (pos + 1) (c + 1)
          simp only [takeLoop, hx, if_true, if_neg hhit]
          omega
      | more lo =>
        have := ih (pos + 1) (c + 1)
        simp only [takeLoop, hx, if_true]
        omega
    · simp [takeLoop, hx]

lemma takeLoop_pos_le (f : Nat → Bool) (opt : TakeOpt) :
    ∀ (l : List Nat) (pos c : Nat), (takeLoop f opt l pos c).1 ≤ pos + l.length := by
  intro l
  induction l with
  | nil => intro pos c; simp [takeLoop]
  | cons x xs ih =>
    intro pos c
    by_cases hx : f x
    · cases opt with
      | one => simp [takeLoop, hx]
      | range lo hi =>
        by_cases hhit : c + 1 = hi
        · simp [takeLoop, hx, hhit]
        · have := ih (pos + 1) (c + 1)
          simp only [takeLoop, hx, if_true, if_neg hhit, List.length_cons]
          omega
      | more lo =>
        have := ih (pos + 1) (c + 1)
        simp only [takeLoop, hx, if_true, List.length_cons]
        omega
    · simp [takeLoop, hx]

instance {ε α : Type} [DecidableEq ε] [DecidableEq α] :
    DecidableEq (Except ε α) := fun x y =>
  match x, y with
  | .ok a, .ok b =>
    if h : a = b then .isTrue (by rw [h])
    else .isFalse (by intro hc; injection hc; contradiction)
  | .error a, .error b =>
    if h : a = b then .isTrue (by rw [h])
    else .isFalse (by intro hc; injection hc; contradiction)
  | .ok _, .error _ => .isFalse (by intro hc; exact Except.noConfusion hc)
  | .error _, .ok _ => .isFalse (by intro hc; exact Except.noConfusion hc)

/-! ## Mode characterisation of `take_while` -/

lemma take_while_one (p : Parser) (f : Nat → Bool) :
    p.take_while f .one
      = if matchLen f p.food = 0
        then ({ p with pos := p.eaten }, .error .mismatch)
        else ({ p with pos := p.pos + 1 }, .ok ()) := by
  by_cases hm : matchLen f p.food = 0
  · simp [Parser.take_while, takeLoop_one_eq, hm, Parser.backward]
  · simp only [Parser.take_while, takeLoop_one_eq, if_neg hm]
    rw [if_neg (show ¬p.pos = p.pos + 1 by omega)]

lemma take_while_more (p : Parser) (f : Nat → Bool) (lo : Nat) :
    p.take_while f (.more lo)
      = if lo ≤ matchLen f p.food
        then ({ p with pos := p.pos + matchLen f p.food }, .ok ())
        else ({ p with pos := p.eaten }, .error .mismatch) := by
  by_cases hm : matchLen f p.food = 0
  · by_cases hlo : lo = 0
    · subst hlo
      simp [Parser.take_while, takeLoop_more_eq, hm]
    · rw [if_neg (by omega)]
      simp [Parser.take_while, takeLoop_more_eq, hm, hlo, Parser.backward]
  · by_cases hlo : lo ≤ matchLen f p.food
    · rw [if_pos hlo]
      simp only [Parser.take_while, takeLoop_more_eq]
      rw [if_neg (by simp ; omega), if_neg (by omega)]
    · rw [if_neg hlo]
      simp only [Parser.take_while, takeLoop_more_eq]
      rw [if_neg (by simp ; omega), if_pos (by omega)]
      rfl

lemma take_while_range (p : Parser) (f : Nat → Bool) (lo hi : Nat)
    (hhi : 1 ≤ hi) :
    p.take_while f (.range lo hi)
      = if lo ≤ min (matchLen f p.food) hi
        then ({ p with pos := p.pos + min (matchLen f p.food) hi }, .ok ())
        else ({ p with pos := p.eaten }, .error .mismatch) := by
  have hl := takeLoop_range_eq f lo hi p.food p.pos 0 (by omega)
  simp only [Nat.sub_zero, Nat.zero_add] at hl
  by_cases hm : matchLen f p.food = 0
  · by_cases hlo : lo = 0
    · subst hlo
      simp [Parser.take_while, hl, hm]
    · rw [if_neg (by omega)]
      simp [Parser.take_while, hl, hm, hlo, Parser.backward]
  · have hmin : 0 < min (matchLen f p.food) hi := by omega
    by_cases hlo : lo ≤ min (matchLen f p.food) hi
    · rw [if_pos hlo]
      simp only [Parser.take_while, hl]
      rw [if_neg (by simp ; omega), if_neg (by omega)]
    · rw [if_neg hlo]
      simp only [Parser.take_while, hl]
      rw [if_neg (by simp ; omega), if_pos (by omega)]
      rfl

lemma take_while_range_zero (p : Parser) (f : Nat → Bool) (lo : Nat) :
    p.take_while f (.range lo 0)
      = if lo ≤ matchLen f p.food
        then ({ p with pos := p.pos + matchLen f p.food }, .ok ())
        else ({ p with pos := p.eaten }, .error .mismatch) := by
  have hl := takeLoop_range_zero_eq f lo p.food p.pos 0
  by_cases hm : matchLen f p.food = 0
  · by_cases hlo : lo = 0
    · subst hlo
      simp [Parser.take_while, hl, hm]
    · rw [if_neg (by omega)]
      simp [Parser.take_while, hl, hm, hlo, Parser.backward]
  · by_cases hlo : lo ≤ matchLen f p.food
    · rw [if_pos hlo]
      simp only [Parser.take_while, hl]
      rw [if_neg (by simp ; omega), if_neg (by omega)]
    · rw [if_neg hlo]
      simp only [Parser.take_while, hl]
      rw [if_neg (by simp ; omega), if_pos (by omega)]
      rfl

/-- On `Mismatch`, `take_while` rewinds the cursor to `eaten` (the last
commit point) and leaves every other field unchanged. -/
lemma take_while_mismatch (p : Parser) (f : Nat → Bool) (opt : TakeOpt)
    (q : Parser) (e : PError) (h : p.take_while f opt = (q, .error e)) :
    e = .mismatch ∧ q = { p with pos := p.eaten } := by
  cases opt with
  | one =>
    rw [take_while_one] at h
    split at h
    · injection h with h1 h2
      injection h2 with h3
      exact ⟨h3.symm, h1.symm⟩
    · injection h with h1 h2
      exact absurd h2 (fun hc => Except.noConfusion hc)
  | more lo =>
    rw [take_while_more] at h
    split at h
    · injection h with h1 h2
      exact absurd h2 (fun hc => Except.noConfusion hc)
    · injection h with h1 h2
      injection h2 with h3
      exact ⟨h3.symm, h1.symm⟩
  | range lo hi =>
    cases hi with
    | zero =>
      rw [take_while_range_zero] at h
      split at h
      · injection h with h1 h2
        exact absurd h2 (fun hc => Except.noConfusion hc)
      · injection h with h1 h2
        injection h2 with h3
        exact ⟨h3.symm, h1.symm⟩
    | succ n =>
      rw [take_while_range p f lo (n + 1) (by omega)] at h
      split at h
      · injection h with h1 h2
        exact absurd h2 (fun hc => Except.noConfusion hc)
      · injection h with h1 h2
        injection h2 with h3
        exact ⟨h3.symm, h1.symm⟩

/-- On success, `take_while` only moves `pos` forward; the other fields
are untouched. -/
lemma take_while_ok (p : Parser) (f : Nat → Bool) (opt : TakeOpt)
    (q : Parser) (u : Unit) (h : p.take_while f opt = (q, .ok u)) :
    ∃ d : Nat, q = { p with pos := p.pos + d } := by
  cases opt with
  | one =>
    rw [take_while_one] at h
    split at h
    · injection h with h1 h2
      exact absurd h2 (fun hc => Except.noConfusion hc)
    · injection h with h1 h2
      exact ⟨1, h1.symm⟩
  | more lo =>
    rw [take_while_more] at h
    split at h
    · injection h with h1 h2
      exact ⟨matchLen f p.food, h1.symm⟩
    · injection h with h1 h2
      exact absurd h2 (fun hc => Except.noConfusion hc)
  | range lo hi =>
    cases hi with
    | zero =>
      rw [take_while_range_zero] at h
      split at h
      · injection h with h1 h2
        exact ⟨matchLen f p.food, h1.symm⟩
      · injection h with h1 h2
        exact absurd h2 (fun hc => Except.noConfusion hc)
    | succ n =>
      rw [take_while_range p f lo (n + 1) (by omega)] at h
      split at h
      · injection h with h1 h2
        exact ⟨min (matchLen f p.food) (n + 1), h1.symm⟩
      · injection h with h1 h2
        exact absurd h2 (fun hc => Except.noConfusion hc)

/-- `sym_seq` on failure also rewinds to the `eaten` of the entry state
(each inner `sym` leaves `eaten`, `doc`, `consumed` unchanged while it
succeeds). -/
lemma sym_seq_mismatch (s : List Nat) :
    ∀ (p q : Parser) (e : PError), p.sym_seq s = (q, .error e) →
    e = .mismatch ∧ q = { p with pos := p.eaten } := by
  induction s with
  | nil => intro p q e h; exact absurd h (by simp [Parser.sym_seq])
  | cons c rest ih =>
    intro p q e h
    simp only [Parser.sym_seq] at h
    rcases hs : p.sym c with ⟨r, res⟩
    cases res with
    | ok u =>
      rw [hs] at h
      dsimp only at h
      obtain ⟨d, hd⟩ := take_while_ok p _ .one r u hs
      subst hd
      exact ih { p with pos := p.pos + d } q e h
    | error e0 =>
      rw [hs] at h
      dsimp only at h
      injection h with h1 h2
      injection h2 with h3
      obtain ⟨he, hq⟩ := take_while_mismatch p _ .one r e0 hs
      subst h1 h3
      exact ⟨he, hq⟩

/-! ## Claim C2 -/

/-- C2 (counterexample): the claim says that after a `Mismatch` the
cursor equals the value `pos` had on entry to the call.  With
`doc = [97, 98]`, `pos = 1`, `eaten = 0`, `take_while` of an
always-false predicate in mode `One` mismatches and `backward()` sets
`pos := eaten = 0`, which differs from the entry `pos = 1`. -/
theorem take_while_mismatch_entry_pos_cex :
    ((Parser.mk [97, 98] 1 0 0).take_while (fun _ => false) .one).2
        = .error .mismatch
      ∧ ((Parser.mk [97, 98] 1 0 0).take_while (fun _ => false) .one).1.pos
          ≠ (Parser.mk [97, 98] 1 0 0).pos := by
  refine ⟨rfl, ?_⟩
  decide

/-- C2 (amended): when `take_while` (or `sym_seq`, hence `sym` and
`sym_set`, which are `take_while` in mode `One`) returns
`PError::Mismatch`, the cursor `pos` afterwards equals the value `eaten`
had on entry — the saved commit point — and `eaten` itself is unchanged.
This coincides with the entry `pos` exactly when the caller had
committed (`eaten = pos`) before trying the production. -/
theorem take_while_mismatch_rewinds :
    (∀ (p : Parser) (f : Nat → Bool) (opt : TakeOpt) (q : Parser) (e : PError),
      p.take_while f opt = (q, .error e) →
      e = .mismatch ∧ q.pos = p.eaten ∧ q.eaten = p.eaten
        ∧ (p.eaten = p.pos → q.pos = p.pos)) ∧
    (∀ (p : Parser) (s : List Nat) (q : Parser) (e : PError),
      p.sym_seq s = (q, .error e) →
      e = .mismatch ∧ q.pos = p.eaten ∧ q.eaten = p.eaten
        ∧ (p.eaten = p.pos → q.pos = p.pos)) := by
  constructor
  · intro p f opt q e h
    obtain ⟨he, hq⟩ := take_while_mismatch p f opt q e h
    subst hq
    exact ⟨he, rfl, rfl, fun hh => hh⟩
  · intro p s q e h
    obtain ⟨he, hq⟩ := sym_seq_mismatch s p q e h
    subst hq
    exact ⟨he, rfl, rfl, fun hh => hh⟩

/-- C2 (witness): the amended theorem applied at a concrete mismatch:
an always-false predicate on `doc = [97, 98]` from `pos = 1`,
`eaten = 0`. -/
theorem take_while_mismatch_rewinds_witness :
    PError.mismatch = PError.mismatch
      ∧ ((Parser.mk [97, 98] 1 0 0).take_while (fun _ => false) .one).1.pos
          = (Parser.mk [97, 98] 1 0 0).eaten
      ∧ ((Parser.mk [97, 98] 1 0 0).take_while (fun _ => false) .one).1.eaten
          = (Parser.mk [97, 98] 1 0 0).eaten
      ∧ ((Parser.mk [97, 98] 1 0 0).eaten = (Parser.mk [97, 98] 1 0 0).pos →
          ((Parser.mk [97, 98] 1 0 0).take_while (fun _ => false) .one).1.pos
            = (Parser.mk [97, 98] 1 0 0).pos) := by
  have h := take_while_mismatch_rewinds.1 (Parser.mk [97, 98] 1 0 0)
    (fun _ => false) .one
    ((Parser.mk [97, 98] 1 0 0).take_while (fun _ => false) .one).1
    .mismatch (by rfl)
  exact h

/-! ## Claim C3 -/

/-- C3 (counterexample): with mode `Range(0, 0)` the claim predicts an
advance of `min(m, hi) = min(1, 0) = 0` on `doc = [97]` with an
always-true predicate, but the loop's cap check `counter == hi` fires
only after `counter` was incremented, so it never fires for `hi = 0`
and the cursor advances by the full match length `1`. -/
theorem take_while_range_zero_cex :
    ((Parser.new [97]).take_while (fun _ => true) (.range 0 0)).1.pos
      ≠ (Parser.new [97]).pos
        + min (matchLen (fun _ => true) (Parser.new [97]).food) 0 := by
  decide

/-- C3 (amended): `take_while(f, opt)` is a greedy quantified match.
Let `m` be the length of the maximal prefix of the remaining input
whose bytes all satisfy `f`.  Mode `One` succeeds exactly when the byte
at `pos` satisfies `f` (i.e. `m > 0`) and then advances `pos` by 1;
mode `More(lo)` succeeds exactly when `m ≥ lo` and then advances by
`m`; mode `Range(lo, hi)` with `hi ≥ 1` advances by `min(m, hi)` and
succeeds exactly when `min(m, hi) ≥ lo`; `Range(lo, 0)` degenerates to
`More(lo)` because the upper-bound check can never fire.  On
under-match the cursor is rewound (to the commit point `eaten`) and the
call fails with `Mismatch`. -/
theorem take_while_modes (p : Parser) (f : Nat → Bool) (lo hi : Nat)
    (hhi : 1 ≤ hi) :
    ((0 < matchLen f p.food ↔ ∃ b ∈ p.food.head?, f b = true) ∧
      p.take_while f .one
        = if 0 < matchLen f p.food
          then ({ p with pos := p.pos + 1 }, .ok ())
          else ({ p with pos := p.eaten }, .error .mismatch)) ∧
    (p.take_while f (.more lo)
      = if lo ≤ matchLen f p.food
        then ({ p with pos := p.pos + matchLen f p.food }, .ok ())
        else ({ p with pos := p.eaten }, .error .mismatch)) ∧
    (p.take_while f (.range lo hi)
      = if lo ≤ min (matchLen f p.food) hi
        then ({ p with pos := p.pos + min (matchLen f p.food) hi }, .ok ())
        else ({ p with pos := p.eaten }, .error .mismatch)) ∧
    (p.take_while f (.range lo 0) = p.take_while f (.more lo)) := by
  refine ⟨⟨?_, ?_⟩, take_while_more p f lo, take_while_range p f lo hi hhi, ?_⟩
  · cases hfood : p.food with
    | nil => simp [matchLen, hfood]
    | cons b rest =>
      by_cases hb : f b
      · simp [matchLen, hfood, List.takeWhile_cons_of_pos hb, hb]
      · simp [matchLen, hfood, List.takeWhile_cons_of_neg hb, hb]
  · rw [take_while_one]
    by_cases hm : matchLen f p.food = 0
    · rw [if_pos hm, if_neg (by omega)]
    · rw [if_neg hm, if_pos (by omega)]
  · rw [take_while_range_zero, take_while_more]

/-- C3 (witness): the amended theorem applied at `doc = [97, 97]`, an
always-true predicate and bounds `lo = hi = 1`; the `Range` conjunct
evaluates to a one-byte advance. -/
theorem take_while_modes_witness :
    (Parser.new [97, 97]).take_while (fun _ => true) (.range 1 1)
      = if 1 ≤ min (matchLen (fun _ => true) (Parser.new [97, 97]).food) 1
        then ({ Parser.new [97, 97] with
                pos := (Parser.new [97, 97]).pos
                  + min (matchLen (fun _ => true) (Parser.new [97, 97]).food) 1 },
              .ok ())
        else ({ Parser.new [97, 97] with pos := (Parser.new [97, 97]).eaten },
              .error .mismatch) :=
  (take_while_modes (Parser.new [97, 97]) (fun _ => true) 1 1 (by decide)).2.2.1

/-! ## Claim C6 -/

/-- A state transformer that advances the cursor and still reports
failure without rewinding; `context` accepts it, since its argument is
an arbitrary function. -/
def advanceAndFail (q : Parser) : Parser × Except PError Unit :=
  ({ q with pos := q.pos + 1 }, .error .mismatch)

/-- C6 (counterexample): the claim says that for every function `f`,
`context(f)` restores `pos` to the saved checkpoint when `f` fails.
`context` only saves and restores `eaten`; with an `f` that advances
the cursor and returns failure without rewinding, the cursor stays
advanced. -/
theorem context_restores_pos_cex :
    ((Parser.new [97]).context advanceAndFail).2 = .error .mismatch
      ∧ ((Parser.new [97]).context advanceAndFail).1.pos
          ≠ (Parser.new [97]).pos := by
  refine ⟨rfl, ?_⟩
  decide

/-- C6 (amended): `context(f)` restores `eaten` to its pre-call value
after `f` returns, for every `f` and every result type; it passes `f`'s
effect on `pos` through unchanged, so on success `pos` is whatever `f`
left.  The cursor is restored on failure only for those `f` that
themselves rewind `pos` to the commit point before returning failure —
as `take_while` and every matcher built on it do — because `context`
sets `eaten := pos` on entry. -/
theorem context_frame :
    (∀ (Ret : Type) (p : Parser) (f : Parser → Parser × Ret),
      (p.context f).1.eaten = p.eaten) ∧
    (∀ (Ret : Type) (p : Parser) (f : Parser → Parser × Ret),
      (p.context f).1.pos = (f p.forward).1.pos
        ∧ (p.context f).2 = (f p.forward).2) ∧
    (∀ (p : Parser) (f : Parser → Parser × Except PError Unit),
      (∀ (q r : Parser) (e : PError), f q = (r, .error e) → r.pos = q.eaten) →
      ∀ (e : PError), (p.context f).2 = .error e →
      (p.context f).1.pos = p.pos) := by
  refine ⟨fun Ret p f => rfl, fun Ret p f => ⟨rfl, rfl⟩, ?_⟩
  intro p f hf e he
  rcases hr : f p.forward with ⟨r, res⟩
  have hpos : (p.context f).1.pos = r.pos := by
    simp [Parser.context, hr]
  have hres : (p.context f).2 = res := by
    simp [Parser.context, hr]
  rw [hres] at he
  subst he
  have := hf p.forward r e hr
  rw [hpos, this]
  rfl

/-- C6 (witness): the frame theorem applied at a concrete state and a
concrete rewinding `f` (an always-false `take_while` in mode `One`):
`eaten` is restored and the failed match leaves `pos` where it was. -/
theorem context_frame_witness :
    ((Parser.mk [97] 1 1 0).context
        (fun q => q.take_while (fun _ => false) .one)).1.pos
      = (Parser.mk [97] 1 1 0).pos :=
  context_frame.2.2 (Parser.mk [97] 1 1 0)
    (fun q => q.take_while (fun _ => false) .one)
    (fun q r e h => ((take_while_mismatch q _ .one r e h).2 ▸ rfl : _))
    .mismatch (by rfl)

/-! ## Claim C8 -/

lemma matchLen_le (f : Nat → Bool) : ∀ l : List Nat, matchLen f l ≤ l.length := by
  intro l
  induction l with
  | nil => simp [matchLen]
  | cons x xs ih =>
    by_cases hx : f x
    · simpa [matchLen, List.takeWhile_cons_of_pos hx] using ih
    · simp [matchLen, List.takeWhile_cons_of_neg hx]

/-- Every exit of `take_while` leaves the state equal to the entry
state with only `pos` replaced: either rewound to `eaten`, or advanced
by at most the match length. -/
lemma take_while_fst_cases (p : Parser) (f : Nat → Bool) (opt : TakeOpt) :
    (p.take_while f opt).1 = { p with pos := p.eaten }
      ∨ ∃ d, d ≤ matchLen f p.food
          ∧ (p.take_while f opt).1 = { p with pos := p.pos + d } := by
  cases opt with
  | one =>
    rw [take_while_one]
    split
    · exact Or.inl rfl
    · rename_i h
      exact Or.inr ⟨1, by omega, rfl⟩
  | more lo =>
    rw [take_while_more]
    split
    · exact Or.inr ⟨matchLen f p.food, le_refl _, rfl⟩
    · exact Or.inl rfl
  | range lo hi =>
    cases hi with
    | zero =>
      rw [take_while_range_zero]
      split
      · exact Or.inr ⟨matchLen f p.food, le_refl _, rfl⟩
      · exact Or.inl rfl
    | succ n =>
      rw [take_while_range p f lo (n + 1) (by omega)]
      split
      · exact Or.inr ⟨min (matchLen f p.food) (n + 1), Nat.min_le_left _ _, rfl⟩
      · exact Or.inl rfl

/-- The food's length is what remains of the document. -/
lemma food_length (p : Parser) : p.food.length = p.doc.length - p.pos := by
  simp [Parser.food]

lemma take_while_fst_inv (p : Parser) (f : Nat → Bool) (opt : TakeOpt)
    (hp : p.pos ≤ p.doc.length) (he : p.eaten ≤ p.doc.length) :
    (p.take_while f opt).1.doc = p.doc
      ∧ (p.take_while f opt).1.pos ≤ p.doc.length
      ∧ (p.take_while f opt).1.eaten = p.eaten := by
  have hm : matchLen f p.food ≤ p.doc.length - p.pos := by
    have := matchLen_le f p.food
    rw [food_length] at this
    exact this
  rcases take_while_fst_cases p f opt with h | ⟨d, hd, h⟩ <;> rw [h]
  · exact ⟨rfl, he, rfl⟩
  · exact ⟨rfl, by simp ; omega, rfl⟩

lemma sym_seq_fst_inv (s : List Nat) :
    ∀ p : Parser, p.pos ≤ p.doc.length → p.eaten ≤ p.doc.length →
    (p.sym_seq s).1.doc = p.doc
      ∧ (p.sym_seq s).1.pos ≤ p.doc.length
      ∧ (p.sym_seq s).1.eaten = p.eaten := by
  induction s with
  | nil => intro p hp he; exact ⟨rfl, hp, rfl⟩
  | cons c rest ih =>
    intro p hp he
    simp only [Parser.sym_seq]
    rcases hs : p.sym c with ⟨r, res⟩
    have hr := take_while_fst_inv p (Parser.is_in [c]) .one hp he
    rw [show p.sym c = p.take_while (Parser.is_in [c]) .one from rfl] at hs
    rw [hs] at hr
    cases res with
    | ok u =>
      dsimp only
      have := ih r (hr.1 ▸ hr.2.1) (by rw [hr.2.2, hr.1]; exact he)
      rw [hr.1] at this
      exact ⟨this.1, this.2.1, by rw [this.2.2, hr.2.2]⟩
    | error e =>
      dsimp only
      exact hr

/-- A cursor operation of the public contract of `src/parser/base`;
`contextC` wraps a nested sequence of operations, as `context(f)` runs
an arbitrary sub-parser `f`. -/
inductive Op where
  | takeW : (Nat → Bool) → TakeOpt → Op
  | symB : Nat → Op
  | symSet : List Nat → Op
  | symSeq : List Nat → Op
  | forwardC : Op
  | backwardC : Op
  | consumeC : Op
  | backC : Nat → Op
  | contextC : List Op → Op

mutual

/-- Run one cursor operation for its state effect (errors only rewind
the cursor, so the state after an error is the rewound state). -/
def applyOp (p : Parser) : Op → Parser
  | .takeW f opt => (p.take_while f opt).1
  | .symB c => (p.sym c).1
  | .symSet s => (p.sym_set s).1
  | .symSeq s => (p.sym_seq s).1
  | .forwardC => p.forward
  | .backwardC => p.backward
  | .consumeC => p.consume
  | .backC n => p.back n
  | .contextC ops => { applyOps p.forward ops with eaten := p.eaten }

/-- Run a sequence of cursor operations. -/
def applyOps (p : Parser) : List Op → Parser
  | [] => p
  | o :: rest => applyOps (applyOp p o) rest

end

mutual

/-- No `back(n)` in the sequence underflows: at each application of
`backC n` the cursor satisfies `n ≤ pos`.  This is the precondition
`self.pos -= n` carries on `usize` (a debug build panics when it is
violated; a release build wraps). -/
def opBackSafe (p : Parser) : Op → Bool
  | .backC n => decide (n ≤ p.pos)
  | .contextC ops => opsBackSafe p.forward ops
  | _ => true

/-- `opBackSafe` threaded through a sequence of operations. -/
def opsBackSafe (p : Parser) : List Op → Bool
  | [] => true
  | o :: rest => opBackSafe p o && opsBackSafe (applyOp p o) rest

end

mutual

theorem applyOp_bounds : ∀ (p : Parser) (o : Op), opBackSafe p o = true →
    p.pos ≤ p.doc.length → p.eaten ≤ p.doc.length →
    (applyOp p o).doc = p.doc ∧ (applyOp p o).pos ≤ p.doc.length
      ∧ (applyOp p o).eaten ≤ p.doc.length
  | p, .takeW f opt, _, hp, he => by
    have h := take_while_fst_inv p f opt hp he
    exact ⟨h.1, h.2.1, h.2.2 ▸ he⟩
  | p, .symB c, _, hp, he => by
    have h := take_while_fst_inv p (Parser.is_in [c]) .one hp he
    exact ⟨h.1, h.2.1, h.2.2 ▸ he⟩
  | p, .symSet s, _, hp, he => by
    have h := take_while_fst_inv p (Parser.is_in s) .one hp he
    exact ⟨h.1, h.2.1, h.2.2 ▸ he⟩
  | p, .symSeq s, _, hp, he => by
    have h := sym_seq_fst_inv s p hp he
    exact ⟨h.1, h.2.1, h.2.2 ▸ he⟩
  | p, .forwardC, _, hp, he => ⟨rfl, hp, hp⟩
  | p, .backwardC, _, hp, he => ⟨rfl, he, he⟩
  | p, .consumeC, _, hp, he => by
    refine ⟨rfl, ?_, ?_⟩ <;> simp [applyOp, Parser.consume, Parser.forward,
      Parser.backward]
  | p, .backC n, hs, hp, he => by
    have hn : n ≤ p.pos := by simpa [opBackSafe] using hs
    have h := back_pos_of_le p n hn
    exact ⟨rfl, le_trans h.2 hp, he⟩
  | p, .contextC ops, hs, hp, he => by
    have hsafe : opsBackSafe p.forward ops = true := by
      simpa [opBackSafe] using hs
    have h := applyOps_bounds p.forward ops hsafe hp hp
    simp only [applyOp]
    exact ⟨h.1, h.2.1, h.1 ▸ he⟩

theorem applyOps_bounds : ∀ (p : Parser) (ops : List Op),
    opsBackSafe p ops = true →
    p.pos ≤ p.doc.length → p.eaten ≤ p.doc.length →
    (applyOps p ops).doc = p.doc ∧ (applyOps p ops).pos ≤ p.doc.length
      ∧ (applyOps p ops).eaten ≤ p.doc.length
  | p, [], _, hp, he => ⟨rfl, hp, he⟩
  | p, o :: rest, hs, hp, he => by
    have hsplit : opBackSafe p o = true
        ∧ opsBackSafe (applyOp p o) rest = true := by
      simpa [opsBackSafe, Bool.and_eq_true] using hs
    have h1 := applyOp_bounds p o hsplit.1 hp he
    have h2 := applyOps_bounds (applyOp p o) rest hsplit.2
      (h1.1 ▸ h1.2.1) (h1.1 ▸ h1.2.2)
    rw [h1.1] at h2
    exact ⟨h2.1, h2.2.1, h2.2.2⟩

end

/-- C8 (counterexample): `back` is among the operations the claim
quantifies over, and its `self.pos -= n` is `usize` arithmetic: in a
release build `Parser::new(doc).back(1)` wraps the cursor to
`2^64 - 1`, far past the input length (a debug build panics instead of
producing any state). -/
theorem cursor_back_wrap_cex :
    ¬ ((applyOps (Parser.new [97]) [.backC 1]).pos
        ≤ ([97] : List Nat).length) := by
  have h : (applyOps (Parser.new [97]) [.backC 1]).pos = 2 ^ 64 - 1 := by
    simp only [applyOps, applyOp, Parser.back, Parser.new]
    omega
  rw [h]
  norm_num

/-- C8 (amended): starting from `Parser::new(doc)`, no sequence of
cursor operations (matchers, commits, rewinds, `consume`, `back`, or
`context` over further operations) in which every `back(n)` respects
the `n ≤ pos` precondition of its `usize` subtraction (debug builds
panic when it is violated; release builds wrap the cursor far past the
input) ever advances `pos` past the input length, and `eaten` stays in
bounds too, so the slice `food() = doc[pos..]` is always well defined
(its length is exactly `doc.len() - pos`). -/
theorem cursor_never_past_end (doc : List Nat) (ops : List Op)
    (hs : opsBackSafe (Parser.new doc) ops = true) :
    (applyOps (Parser.new doc) ops).pos ≤ doc.length
      ∧ (applyOps (Parser.new doc) ops).eaten ≤ doc.length
      ∧ (applyOps (Parser.new doc) ops).doc = doc
      ∧ (applyOps (Parser.new doc) ops).food.length
          = doc.length - (applyOps (Parser.new doc) ops).pos := by
  have h := applyOps_bounds (Parser.new doc) ops hs (by simp [Parser.new])
    (by simp [Parser.new])
  have hdoc : (applyOps (Parser.new doc) ops).doc = doc := h.1
  refine ⟨hdoc ▸ h.2.1, hdoc ▸ h.2.2, hdoc, ?_⟩
  rw [food_length, hdoc]

/-- C8 (witness): the amended theorem at a concrete document and
operation sequence — match one byte, commit, rewind one byte with a
non-underflowing `back(1)`. -/
theorem cursor_never_past_end_witness :
    (applyOps (Parser.new [97, 98])
        [.takeW (fun _ => true) (.more 1), .backC 1]).pos
      ≤ ([97, 98] : List Nat).length :=
  (cursor_never_past_end [97, 98]
    [.takeW (fun _ => true) (.more 1), .backC 1]
    (by simp [opsBackSafe, opBackSafe, applyOp, Parser.take_while,
      takeLoop, Parser.food, Parser.new])).1

/-! ## Claim C9 -/

lemma sym_seq_ok_indicator (s : List Nat) :
    ∀ (p q : Parser) (u : Unit), p.sym_seq s = (q, .ok u) →
    p.indicator ≤ q.indicator := by
  induction s with
  | nil =>
    intro p q u h
    injection h with h1 h2
    exact h1 ▸ le_refl _
  | cons c rest ih =>
    intro p q u h
    simp only [Parser.sym_seq] at h
    rcases hs : p.sym c with ⟨r, res⟩
    cases res with
    | ok u0 =>
      rw [hs] at h
      dsimp only at h
      obtain ⟨d, hd⟩ := take_while_ok p (Parser.is_in [c]) .one r u0 hs
      have h1 : p.indicator ≤ r.indicator := by
        rw [hd]; simp [Parser.indicator]
      exact le_trans h1 (ih r q u h)
    | error e0 =>
      rw [hs] at h
      dsimp only at h
      injection h with h1 h2
      exact absurd h2 (fun hc => Except.noConfusion hc)

/-- C9: the absolute offset `indicator() = consumed + pos` never
decreases across the successfully returning cursor operations:
`forward` and `consume` leave it unchanged (`consume` trades `pos` into
`consumed`), and `take_while` — hence `sym`, `sym_set` and `sym_seq`,
which are built on it — only moves it forward when it returns `Ok`. -/
theorem indicator_monotone :
    (∀ p : Parser, p.indicator ≤ p.forward.indicator) ∧
    (∀ p : Parser, p.indicator ≤ p.consume.indicator) ∧
    (∀ (p : Parser) (f : Nat → Bool) (opt : TakeOpt) (q : Parser) (u : Unit),
      p.take_while f opt = (q, .ok u) → p.indicator ≤ q.indicator) ∧
    (∀ (p : Parser) (s : List Nat) (q : Parser) (u : Unit),
      p.sym_seq s = (q, .ok u) → p.indicator ≤ q.indicator) := by
  refine ⟨fun p => le_refl _, fun p => ?_, ?_, ?_⟩
  · simp [Parser.consume, Parser.forward, Parser.backward, Parser.indicator]
  · intro p f opt q u h
    obtain ⟨d, hd⟩ := take_while_ok p f opt q u h
    rw [hd]
    simp [Parser.indicator]
  · intro p s q u h
    exact sym_seq_ok_indicator s p q u h

/-- C9 (witness): the monotonicity theorem applied at a concrete
successful `take_while` (two matching bytes in mode `More(1)`). -/
theorem indicator_monotone_witness :
    (Parser.mk [97, 97] 0 0 5).indicator
      ≤ (Parser.mk [97, 97] 2 0 5).indicator :=
  indicator_monotone.2.2.1 (Parser.mk [97, 97] 0 0 5) (fun _ => true)
    (.more 1) (Parser.mk [97, 97] 2 0 5) () (by rfl)

/-! ## Claim C1 -/

mutual

/-- Structurally equal payloads hash equal: the modelled hash is
congruent along the payload-only equality. -/
theorem yamlBeq_hash : ∀ (y z : Yaml), yamlBeq y z = true →
    yamlHash y = yamlHash z
  | .null, .null, _ => rfl
  | .bool a, .bool b, h => by
    have : a = b := by simpa [yamlBeq] using h
    rw [this]
  | .int a, .int b, h => by
    have : a = b := by simpa [yamlBeq] using h
    rw [this]
  | .float a, .float b, h => by
    have : a = b := by simpa [yamlBeq] using h
    rw [this]
  | .str a, .str b, h => by
    have : a = b := by simpa [yamlBeq] using h
    rw [this]
  | .array a, .array b, h => by
    have hn : nodesBeq a b = true := by simpa [yamlBeq] using h
    show mix 5 (nodesHash a) = mix 5 (nodesHash b)
    rw [nodesBeq_hash a b hn]
  | .map a, .map b, h => by
    have hn : pairsBeq a b = true := by simpa [yamlBeq] using h
    show mix 6 (pairsHash a) = mix 6 (pairsHash b)
    rw [pairsBeq_hash a b hn]
  | .anchor a, .anchor b, h => by
    have : a = b := by simpa [yamlBeq] using h
    rw [this]
  | .null, .bool _, h | .null, .int _, h | .null, .float _, h
  | .null, .str _, h | .null, .array _, h | .null, .map _, h
  | .null, .anchor _, h
  | .bool _, .null, h | .bool _, .int _, h | .bool _, .float _, h
  | .bool _, .str _, h | .bool _, .array _, h | .bool _, .map _, h
  | .bool _, .anchor _, h
  | .int _, .null, h | .int _, .bool _, h | .int _, .float _, h
  | .int _, .str _, h | .int _, .array _, h | .int _, .map _, h
  | .int _, .anchor _, h
  | .float _, .null, h | .float _, .bool _, h | .float _, .int _, h
  | .float _, .str _, h | .float _, .array _, h | .float _, .map _, h
  | .float _, .anchor _, h
  | .str _, .null, h | .str _, .bool _, h | .str _, .int _, h
  | .str _, .float _, h | .str _, .array _, h | .str _, .map _, h
  | .str _, .anchor _, h
  | .array _, .null, h | .array _, .bool _, h | .array _, .int _, h
  | .array _, .float _, h | .array _, .str _, h | .array _, .map _, h
  | .array _, .anchor _, h
  | .map _, .null, h | .map _, .bool _, h | .map _, .int _, h
  | .map _, .float _, h | .map _, .str _, h | .map _, .array _, h
  | .map _, .anchor _, h
  | .anchor _, .null, h | .anchor _, .bool _, h | .anchor _, .int _, h
  | .anchor _, .float _, h | .anchor _, .str _, h | .anchor _, .array _, h
  | .anchor _, .map _, h => by simp [yamlBeq] at h

theorem nodeBeq_hash : ∀ (m n : Node), nodeBeq m n = true →
    nodeHash m = nodeHash n
  | .mk y _ _ _, .mk z _ _ _, h => by
    have hy : yamlBeq y z = true := by simpa [nodeBeq] using h
    show yamlHash y = yamlHash z
    exact yamlBeq_hash y z hy

theorem nodesBeq_hash : ∀ (l1 l2 : List Node), nodesBeq l1 l2 = true →
    nodesHash l1 = nodesHash l2
  | [], [], _ => rfl
  | [], _ :: _, h => by simp [nodesBeq] at h
  | _ :: _, [], h => by simp [nodesBeq] at h
  | a :: as, b :: bs, h => by
    have h2 : nodeBeq a b = true ∧ nodesBeq as bs = true := by
      simpa [nodesBeq, Bool.and_eq_true] using h
    show mix (nodeHash a) (nodesHash as) = mix (nodeHash b) (nodesHash bs)
    rw [nodeBeq_hash a b h2.1, nodesBeq_hash as bs h2.2]

theorem pairsBeq_hash : ∀ (l1 l2 : List (Node × Node)),
    pairsBeq l1 l2 = true → pairsHash l1 = pairsHash l2
  | [], [], _ => rfl
  | [], _ :: _, h => by simp [pairsBeq] at h
  | _ :: _, [], h => by simp [pairsBeq] at h
  | (k, v) :: as, (l, w) :: bs, h => by
    have h2 : nodeBeq k l = true ∧ nodeBeq v w = true
        ∧ pairsBeq as bs = true := by
      simpa [pairsBeq, Bool.and_eq_true, and_assoc] using h
    show mix (mix (nodeHash k) (nodeHash v)) (pairsHash as)
      = mix (mix (nodeHash l) (nodeHash w)) (pairsHash bs)
    rw [nodeBeq_hash k l h2.1, nodeBeq_hash v w h2.2.1,
      pairsBeq_hash as bs h2.2.2]

end

/-- C1: node equality compares only the `yaml` payloads, whatever the
`pos`, `ty`, `anchor` decorations are; structurally equal payloads hash
equal; and the three doc-test nodes — the same `Str("a")` payload under
three different decorations — collapse to a single entry of a hash
set. -/
theorem node_eq_hash_payload_only :
    (∀ (y z : Yaml) (p1 p2 : Nat) (t1 t2 a1 a2 : String),
      nodeBeq (.mk y p1 t1 a1) (.mk z p2 t2 a2) = yamlBeq y z) ∧
    (∀ m n : Node, nodeBeq m n = true → nodeHash m = nodeHash n) ∧
    (hashSetInsert (hashSetInsert (hashSetInsert []
        (.mk (.str "a") 0 "" "")) (.mk (.str "a") 1 "my-type" ""))
        (.mk (.str "a") 2 "" "my-anchor")).length = 1 := by
  refine ⟨fun y z p1 p2 t1 t2 a1 a2 => by simp [nodeBeq], nodeBeq_hash, ?_⟩
  simp [hashSetInsert, nodeBeq, yamlBeq]

/-- C1 (witness): the hash conjunct applied to two nodes with the same
payload and different decorations. -/
theorem node_eq_hash_payload_only_witness :
    nodeHash (.mk (.str "a") 0 "" "")
      = nodeHash (.mk (.str "a") 1 "my-type" "") :=
  node_eq_hash_payload_only.2.1 (.mk (.str "a") 0 "" "")
    (.mk (.str "a") 1 "my-type" "") (by simp [nodeBeq, yamlBeq])

/-! ## Claim C4 -/

/-- Every map level along the path exists and only the final key is
missing (the situation the claim singles out for the default). -/
def finalKeyMissing (n : Node) (keys : List Yaml) : Bool :=
  match keys with
  | [] => false
  | k :: rest =>
    match n.yaml with
    | .map m =>
      match mapGet m (.mk k 0 "" "") with
      | some c => if rest.isEmpty then false else finalKeyMissing c rest
      | none => rest.isEmpty
    | _ => false

/-- The first node along the path that is consulted for a key lookup
(i.e. with a non-empty remaining path) but is not a map, if any. -/
def reachedNonMap (n : Node) (keys : List Yaml) : Option Node :=
  match keys with
  | [] => none
  | k :: rest =>
    match n.yaml with
    | .map m =>
      match mapGet m (.mk k 0 "" "") with
      | some c => if rest.isEmpty then none else reachedNonMap c rest
      | none => none
    | _ => some n

/-- C4: `get_default(path, d, proj)` agrees with `proj` of the node
that `get(path)` finds when the path exists; returns `Ok d` when every
map level along the path exists but the final key is missing; and
returns `Err` with the offending node's `pos` when a node consulted
along the path is present but not a map. -/
theorem get_default_spec {Ret : Type} (d : Ret)
    (factory : Node → Except Nat Ret) :
    ∀ (keys : List Yaml) (n : Node),
    (∀ m : Node, n.get keys = some (.ok m) →
      n.get_default keys d factory = some (factory m)) ∧
    (finalKeyMissing n keys = true →
      n.get_default keys d factory = some (.ok d)) ∧
    (∀ bad : Node, reachedNonMap n keys = some bad →
      n.get_default keys d factory = some (.error bad.pos)) := by
  intro keys
  induction keys with
  | nil =>
    intro n
    refine ⟨?_, ?_, ?_⟩ <;>
      simp [Node.get, Node.get_default, finalKeyMissing, reachedNonMap]
  | cons k rest ih =>
    intro n
    cases hy : n.yaml with
    | map m =>
      cases hg : mapGet m (.mk k 0 "" "") with
      | some c =>
        cases rest with
        | nil =>
          refine ⟨?_, ?_, ?_⟩ <;>
            simp [Node.get, Node.get_default, finalKeyMissing,
              reachedNonMap, hy, hg]
        | cons k2 r2 =>
          have hc := ih c
          refine ⟨?_, ?_, ?_⟩
          · intro x hx
            simp only [Node.get, hy, hg] at hx
            simp only [Node.get_default, hy, hg]
            exact hc.1 x hx
          · intro hx
            simp only [finalKeyMissing, hy, hg, List.isEmpty_cons,
              if_neg Bool.false_ne_true] at hx
            simp only [Node.get_default, hy, hg]
            exact hc.2.1 hx
          · intro bad hbad
            simp only [reachedNonMap, hy, hg, List.isEmpty_cons,
              if_neg Bool.false_ne_true] at hbad
            simp only [Node.get_default, hy, hg]
            exact hc.2.2 bad hbad
      | none =>
        refine ⟨?_, ?_, ?_⟩ <;>
          intros <;>
          simp_all [Node.get, Node.get_default, finalKeyMissing,
            reachedNonMap, hy, hg]
    | null =>
      refine ⟨?_, ?_, ?_⟩ <;> intros <;>
        simp_all [Node.get, Node.get_default, finalKeyMissing,
          reachedNonMap, hy]
    | bool b =>
      refine ⟨?_, ?_, ?_⟩ <;> intros <;>
        simp_all [Node.get, Node.get_default, finalKeyMissing,
          reachedNonMap, hy]
    | int s =>
      refine ⟨?_, ?_, ?_⟩ <;> intros <;>
        simp_all [Node.get, Node.get_default, finalKeyMissing,
          reachedNonMap, hy]
    | float s =>
      refine ⟨?_, ?_, ?_⟩ <;> intros <;>
        simp_all [Node.get, Node.get_default, finalKeyMissing,
          reachedNonMap, hy]
    | str s =>
      refine ⟨?_, ?_, ?_⟩ <;> intros <;>
        simp_all [Node.get, Node.get_default, finalKeyMissing,
          reachedNonMap, hy]
    | array a =>
      refine ⟨?_, ?_, ?_⟩ <;> intros <;>
        simp_all [Node.get, Node.get_default, finalKeyMissing,
          reachedNonMap, hy]
    | anchor s =>
      refine ⟨?_, ?_, ?_⟩ <;> intros <;>
        simp_all [Node.get, Node.get_default, finalKeyMissing,
          reachedNonMap, hy]

/-- C4 (witness): the three branches at concrete inputs: the doc-test
map `{"a": {"b": "c"}}` projected with `as_str` yields `"c"`; the map
`{"a": {}}` yields the default; the map `{"a": 1}` (an `Int` where a
map is needed) yields the error with the inner node's position. -/
theorem get_default_spec_witness :
    (Node.mk (.map [(.mk (.str "a") 0 "" "",
        .mk (.map [(.mk (.str "b") 0 "" "", .mk (.str "c") 4 "" "")]) 2 "" "")])
        0 "" "").get_default [.str "a", .str "b"] "d" Node.as_str
      = some (Node.as_str (.mk (.str "c") 4 "" ""))
    ∧ (Node.mk (.map [(.mk (.str "a") 0 "" "", .mk (.map []) 2 "" "")])
        0 "" "").get_default [.str "a", .str "b"] "d" Node.as_str
      = some (.ok "d")
    ∧ (Node.mk (.map [(.mk (.str "a") 0 "" "", .mk (.int "1") 3 "" "")])
        0 "" "").get_default [.str "a", .str "b"] "d" Node.as_str
      = some (.error (Node.mk (.int "1") 3 "" "").pos) := by
  refine ⟨?_, ?_, ?_⟩
  · exact (get_default_spec "d" Node.as_str [.str "a", .str "b"] _).1
      (.mk (.str "c") 4 "" "")
      (by simp [Node.get, mapGet, nodeBeq, yamlBeq, Node.yaml, List.find?])
  · exact (get_default_spec "d" Node.as_str [.str "a", .str "b"] _).2.1
      (by simp [finalKeyMissing, mapGet, nodeBeq, yamlBeq, Node.yaml,
        List.find?])
  · exact (get_default_spec "d" Node.as_str [.str "a", .str "b"] _).2.2
      (.mk (.int "1") 3 "" "")
      (by simp [reachedNonMap, mapGet, nodeBeq, yamlBeq, Node.yaml,
        List.find?])

/-! ## Claim C5 -/

/-- C5: indexing is infallible and returns `self` on a miss.  By
`usize`: the `i`-th element of an array with more than `i` elements,
the entry at the integer-string key for a map, and the node itself in
every other case (array too short, key absent, or scalar).  By string:
the entry at the string key of a map, otherwise the node itself; hence
a chain of indexings on a non-container node returns the node itself
(the self-referential sink). -/
theorem index_self_on_miss :
    (∀ (n : Node) (i : Nat) (a : List Node), n.yaml = .array a →
      (∀ x, a.get? i = some x → n.indexNat i = x)
        ∧ (a.length ≤ i → n.indexNat i = n)) ∧
    (∀ (n : Node) (i : Nat) (m : List (Node × Node)), n.yaml = .map m →
      (∀ v, mapGet m (.mk (.int (toString i)) 0 "" "") = some v →
          n.indexNat i = v)
        ∧ (mapGet m (.mk (.int (toString i)) 0 "" "") = none →
          n.indexNat i = n)) ∧
    (∀ (n : Node) (i : Nat), (∀ a, n.yaml ≠ .array a) →
      (∀ m, n.yaml ≠ .map m) → n.indexNat i = n) ∧
    (∀ (n : Node) (k : String) (m : List (Node × Node)), n.yaml = .map m →
      (∀ v, mapGet m (.mk (.str k) 0 "" "") = some v → n.indexStr k = v)
        ∧ (mapGet m (.mk (.str k) 0 "" "") = none → n.indexStr k = n)) ∧
    (∀ (n : Node) (k : String), (∀ m, n.yaml ≠ .map m) → n.indexStr k = n) ∧
    (∀ (n : Node) (k1 k2 : String) (i : Nat), (∀ a, n.yaml ≠ .array a) →
      (∀ m, n.yaml ≠ .map m) → ((n.indexStr k1).indexNat i).indexStr k2 = n) := by
  refine ⟨?_, ?_, ?_, ?_, ?_, ?_⟩
  · intro n i a hy
    constructor
    · intro x hx
      rw [List.get?_eq_getElem?] at hx
      simp [Node.indexNat, hy, hx]
    · intro hlen
      have hnone : a[i]? = none := by
        rw [List.getElem?_eq_none_iff]
        exact hlen
      simp [Node.indexNat, hy, hnone]
  · intro n i m hy
    constructor
    · intro v hv; simp [Node.indexNat, hy, hv]
    · intro hv; simp [Node.indexNat, hy, hv]
  · intro n i ha hm
    cases hy : n.yaml with
    | array a => exact absurd hy (ha a)
    | map m => exact absurd hy (hm m)
    | null => simp [Node.indexNat, hy]
    | bool b => simp [Node.indexNat, hy]
    | int s => simp [Node.indexNat, hy]
    | float s => simp [Node.indexNat, hy]
    | str s => simp [Node.indexNat, hy]
    | anchor s => simp [Node.indexNat, hy]
  · intro n k m hy
    constructor
    · intro v hv; simp [Node.indexStr, hy, hv]
    · intro hv; simp [Node.indexStr, hy, hv]
  · intro n k hm
    cases hy : n.yaml with
    | map m => exact absurd hy (hm m)
    | array a => simp [Node.indexStr, hy]
    | null => simp [Node.indexStr, hy]
    | bool b => simp [Node.indexStr, hy]
    | int s => simp [Node.indexStr, hy]
    | float s => simp [Node.indexStr, hy]
    | str s => simp [Node.indexStr, hy]
    | anchor s => simp [Node.indexStr, hy]
  · intro n k1 k2 i ha hm
    have h1 : ∀ k, n.indexStr k = n := by
      intro k
      cases hy : n.yaml with
      | map m => exact absurd hy (hm m)
      | array a => simp [Node.indexStr, hy]
      | null => simp [Node.indexStr, hy]
      | bool b => simp [Node.indexStr, hy]
      | int s => simp [Node.indexStr, hy]
      | float s => simp [Node.indexStr, hy]
      | str s => simp [Node.indexStr, hy]
      | anchor s => simp [Node.indexStr, hy]
    have h2 : n.indexNat i = n := by
      cases hy : n.yaml with
      | array a => exact absurd hy (ha a)
      | map m => exact absurd hy (hm m)
      | null => simp [Node.indexNat, hy]
      | bool b => simp [Node.indexNat, hy]
      | int s => simp [Node.indexNat, hy]
      | float s => simp [Node.indexNat, hy]
      | str s => simp [Node.indexNat, hy]
      | anchor s => simp [Node.indexNat, hy]
    rw [h1 k1, h2, h1 k2]

/-- C5 (witness): the doc-test chain `node!(null)["a"][0]["bc"]` is the
null node itself. -/
theorem index_self_on_miss_witness :
    (((Node.mk .null 0 "" "").indexStr "a").indexNat 0).indexStr "bc"
      = Node.mk .null 0 "" "" :=
  index_self_on_miss.2.2.2.2.2 (Node.mk .null 0 "" "") "a" "bc" 0
    (fun a h => by simp [Node.yaml] at h)
    (fun m h => by simp [Node.yaml] at h)

/-! ## Claim C7 -/

/-- C7: `as_str` returns the inner string for a `Str` payload, the
empty string for `Null`, and otherwise an error carrying the node's
`pos`. -/
theorem as_str_spec (n : Node) :
    (∀ s, n.yaml = .str s → n.as_str = .ok s) ∧
    (n.yaml = .null → n.as_str = .ok "") ∧
    ((∀ s, n.yaml ≠ .str s) → n.yaml ≠ .null → n.as_str = .error n.pos) := by
  refine ⟨?_, ?_, ?_⟩
  · intro s hy; simp [Node.as_str, hy]
  · intro hy; simp [Node.as_str, hy]
  · intro hs hn
    cases hy : n.yaml with
    | str s => exact absurd hy (hs s)
    | null => exact absurd hy hn
    | bool b => simp [Node.as_str, hy]
    | int s => simp [Node.as_str, hy]
    | float s => simp [Node.as_str, hy]
    | array a => simp [Node.as_str, hy]
    | map m => simp [Node.as_str, hy]
    | anchor s => simp [Node.as_str, hy]

/-- C7 (witness): each branch at a concrete node — a `Str`, a `Null`
and a `Bool` node at position 7, the last erring with its `pos`. -/
theorem as_str_spec_witness :
    (Node.mk (.str "abc") 1 "" "").as_str = .ok "abc"
      ∧ (Node.mk .null 2 "" "").as_str = .ok ""
      ∧ (Node.mk (.bool true) 7 "" "").as_str
          = .error (Node.mk (.bool true) 7 "" "").pos :=
  ⟨(as_str_spec (Node.mk (.str "abc") 1 "" "")).1 "abc" rfl,
    (as_str_spec (Node.mk .null 2 "" "")).2.1 rfl,
    (as_str_spec (Node.mk (.bool true) 7 "" "")).2.2
      (fun s h => by simp [Node.yaml] at h)
      (fun h => by simp [Node.yaml] at h)⟩

/-! ## Claim C10 -/

/-- C10: `get` and `get_default` panic exactly on the empty key path
(`none` in the embedding models the `panic!("invalid search!")`), and
on every non-empty path they return a proper `Result` — the panic
branch is unreachable under the non-empty-path precondition. -/
theorem get_empty_path_panics :
    (∀ n : Node, n.get [] = none) ∧
    (∀ (Ret : Type) (n : Node) (d : Ret) (factory : Node → Except Nat Ret),
      n.get_default [] d factory = none) ∧
    (∀ (keys : List Yaml) (n : Node), keys ≠ [] →
      (n.get keys).isSome = true) ∧
    (∀ (Ret : Type) (keys : List Yaml) (n : Node) (d : Ret)
      (factory : Node → Except Nat Ret), keys ≠ [] →
      (n.get_default keys d factory).isSome = true) := by
  refine ⟨fun n => rfl, fun Ret n d factory => rfl, ?_, ?_⟩
  · intro keys
    induction keys with
    | nil => intro n h; exact absurd rfl h
    | cons k rest ih =>
      intro n h
      cases hy : n.yaml with
      | map m =>
        cases hg : mapGet m (.mk k 0 "" "") with
        | some c =>
          cases rest with
          | nil => simp [Node.get, hy, hg]
          | cons k2 r2 =>
            simp only [Node.get, hy, hg]
            exact ih c (by simp)
        | none => simp [Node.get, hy, hg]
      | null => simp [Node.get, hy]
      | bool b => simp [Node.get, hy]
      | int s => simp [Node.get, hy]
      | float s => simp [Node.get, hy]
      | str s => simp [Node.get, hy]
      | array a => simp [Node.get, hy]
      | anchor s => simp [Node.get, hy]
  · intro Ret keys
    induction keys with
    | nil => intro n d factory h; exact absurd rfl h
    | cons k rest ih =>
      intro n d factory h
      cases hy : n.yaml with
      | map m =>
        cases hg : mapGet m (.mk k 0 "" "") with
        | some c =>
          cases rest with
          | nil => simp [Node.get_default, hy, hg]
          | cons k2 r2 =>
            simp only [Node.get_default, hy, hg]
            exact ih c d factory (by simp)
        | none => simp [Node.get_default, hy, hg]
      | null => simp [Node.get_default, hy]
      | bool b => simp [Node.get_default, hy]
      | int s => simp [Node.get_default, hy]
      | float s => simp [Node.get_default, hy]
      | str s => simp [Node.get_default, hy]
      | array a => simp [Node.get_default, hy]
      | anchor s => simp [Node.get_default, hy]

/-- C10 (witness): a singleton path on a scalar node does not panic (it
returns a `Result`), while the empty path does. -/
theorem get_empty_path_panics_witness :
    ((Node.mk .null 0 "" "").get [.str "a"]).isSome = true
      ∧ (Node.mk .null 0 "" "").get [] = none :=
  ⟨get_empty_path_panics.2.2.1 [.str "a"] (Node.mk .null 0 "" "")
      (by simp),
    get_empty_path_panics.1 (Node.mk .null 0 "" "")⟩

end YamlPeg
